import Mathlib

set_option maxHeartbeats 1000000

namespace Friday

/-- Roles of a conversation turn, per the spec data model (§3). -/
inductive Role
  | system
  | user
  | assistant
  | tool
deriving DecidableEq

/-- Modelled from the spec: the repository's `context` package sources
(`manager.py`, `compaction.py`, `loop_detector.py`) are not present under the
source tree; only their package re-exports and tests are.  A tool-call request
entry carried by an assistant turn: `{call_id, tool_name, arguments}` (§3). -/
structure ToolCall where
  call_id : String
  tool_name : String
  arguments : List (String × String)
deriving DecidableEq

/-- Modelled from the spec: one message in the conversation (§3 Turn).
`tool_calls` is populated only on assistant turns requesting tool use;
`tool_call_id` only on tool-result turns; `token_count` is cached at append
time; `pinned` marks non-evictable turns. -/
structure Turn where
  role : Role
  content : String
  tool_calls : List ToolCall
  tool_call_id : Option String
  token_count : Nat
  pinned : Bool
deriving DecidableEq

/-- Call ids introduced by a single turn (nonempty only for assistant turns). -/
def turnIds (t : Turn) : List String :=
  if t.role = Role.assistant then t.tool_calls.map (fun c => c.call_id) else []

/-- All call ids introduced by a turn sequence, in order. -/
def callIds : List Turn → List String
  | [] => []
  | t :: ts => turnIds t ++ callIds ts

/-- The back-reference carried by a single turn (nonempty only for a
tool-result turn with a `tool_call_id`). -/
def resultRef (t : Turn) : List String :=
  if t.role = Role.tool then
    match t.tool_call_id with
    | some c => [c]
    | none => []
  else []

/-- All back-references of the tool-result turns of a sequence, in order. -/
def refsOf : List Turn → List String
  | [] => []
  | t :: ts => resultRef t ++ refsOf ts

/-- Head check of the forward pairing invariant: a tool-result turn must
reference a call id already seen. -/
def headOk (seen : List String) (t : Turn) : Bool :=
  if t.role = Role.tool then
    match t.tool_call_id with
    | some c => decide (c ∈ seen)
    | none => false
  else true

/-- Forward half of the pairing invariant (§3 invariant 2): every tool-result
turn's `tool_call_id` matches a `call_id` emitted by some earlier turn, given
the ids `seen` before the sequence starts. -/
def pairedFromB (seen : List String) : List Turn → Bool
  | [] => true
  | t :: ts => headOk seen t && pairedFromB (seen ++ turnIds t) ts

/-- Sum of the cached token counts of a turn sequence. -/
def totalTokens : List Turn → Nat
  | [] => 0
  | t :: ts => t.token_count + totalTokens ts

/-- Token total of the pinned (non-evictable) turns alone. -/
def pinnedTotal (ts : List Turn) : Nat :=
  totalTokens (ts.filter (fun t => t.pinned))

theorem callIds_append (xs ys : List Turn) :
    callIds (xs ++ ys) = callIds xs ++ callIds ys := by
  induction xs with
  | nil => simp [callIds]
  | cons t xs ih => simp [callIds, ih]

theorem refsOf_append (xs ys : List Turn) :
    refsOf (xs ++ ys) = refsOf xs ++ refsOf ys := by
  induction xs with
  | nil => simp [refsOf]
  | cons t xs ih => simp [refsOf, ih]

theorem totalTokens_append (xs ys : List Turn) :
    totalTokens (xs ++ ys) = totalTokens xs + totalTokens ys := by
  induction xs with
  | nil => simp [totalTokens]
  | cons t xs ih => simp [totalTokens, ih, Nat.add_assoc]

theorem totalTokens_filter_le (p : Turn → Bool) (ts : List Turn) :
    totalTokens (ts.filter p) ≤ totalTokens ts := by
  induction ts with
  | nil => simp [totalTokens]
  | cons t ts ih =>
    by_cases h : p t
    · simp [List.filter, h, totalTokens]
      omega
    · simp [List.filter, h, totalTokens]
      omega

theorem pinnedTotal_le_total (ts : List Turn) : pinnedTotal ts ≤ totalTokens ts :=
  totalTokens_filter_le _ ts

/-- Modelled from the spec: a proposed tool invocation, `{tool_name,
arguments}` with arguments an opaque string mapping (§6); the working
directory plays no role in the core logic. -/
structure Invocation where
  tool_name : String
  arguments : List (String × String)
deriving DecidableEq

/-- A normalized call signature `(tool_name, normalized_arguments)` (§4.3). -/
structure Sig where
  tool_name : String
  args : List (String × String)
deriving DecidableEq

/-- Modelled from the spec: normalization removes the fields the tool's
declared schema marks volatile (non-deterministic), given by `vol` per tool
name, before comparing calls (§4.3). -/
def normalize (vol : String → List String) (inv : Invocation) : Sig :=
  { tool_name := inv.tool_name
    args := inv.arguments.filter (fun kv => decide (kv.1 ∉ vol inv.tool_name)) }

/-- Advisory output of the loop detector (§4.3 output contract). -/
inductive Signal
  | proceed
  | redirect
deriving DecidableEq

/-- Detector states: `normal`, `suspect` (repetition below threshold),
`looping` (threshold reached) (§4.3). -/
inductive DetState
  | normal
  | suspect
  | looping
deriving DecidableEq

/-- Modelled from the spec: the detector's bounded history of recent
signatures plus window size N and repeat threshold K (§3 LoopState, §6). -/
structure LoopState where
  window : List Sig
  state : DetState
  n : Nat
  k : Nat
deriving DecidableEq

/-- The initial detector state for window size `n` and threshold `k`. -/
def initLoopState (n k : Nat) : LoopState :=
  { window := [], state := DetState.normal, n := n, k := k }

namespace LoopDetector

/-- Modelled from the spec: `observe` records the normalized signature in the
bounded window; a distinct signature breaks the run and resets the window
immediately; when the identical signature has persisted for K consecutive
observations the detector returns `Redirect` and resets its window (one
intervention per loop episode); two consecutive identical signatures put it
in `suspect` (§4.3). -/
def observe (vol : String → List String) (st : LoopState) (inv : Invocation) :
    Signal × LoopState :=
  let sig := normalize vol inv
  let window :=
    match st.window with
    | [] => [sig]
    | prev :: _ => if prev = sig then (sig :: st.window).take st.n else [sig]
  if st.k ≤ window.length then
    (Signal.redirect, { st with window := [], state := DetState.normal })
  else if 2 ≤ window.length then
    (Signal.proceed, { st with window := window, state := DetState.suspect })
  else
    (Signal.proceed, { st with window := window, state := DetState.normal })

/-- Feed a whole call sequence through the detector, collecting the signals. -/
def observeAll (vol : String → List String) (st : LoopState) :
    List Invocation → List Signal × LoopState
  | [] => ([], st)
  | i :: is =>
    let r := observe vol st i
    let rest := observeAll vol r.2 is
    (r.1 :: rest.1, rest.2)

end LoopDetector

/-- A volatile-field table marking no field volatile, for scenarios that do
not involve volatile arguments. -/
def noVolatile : String → List String := fun _ => []

/-- The concrete call `readFile(a)` of the spec's determinism scenario. -/
def readFileA : Invocation :=
  { tool_name := "readFile", arguments := [("path", "a")] }

/-- C4 scenario detector: window N = 4 and repeat threshold K = 3. -/
def detector43 : LoopState := initLoopState 4 3

/-- C4: with window N = 4 and threshold K = 3, the call sequence
readFile(a), readFile(a), readFile(a), readFile(a) makes `observe` return
Proceed, Proceed, Redirect, Proceed in that order, and the detector's window
is reset (empty) right after the Redirect on the third call. -/
theorem c4_loop_detection_deterministic :
    (LoopDetector.observeAll noVolatile detector43
        [readFileA, readFileA, readFileA, readFileA]).1 =
      [Signal.proceed, Signal.proceed, Signal.redirect, Signal.proceed] ∧
    (LoopDetector.observeAll noVolatile detector43
        [readFileA, readFileA, readFileA]).2.window = [] := by
  constructor
  · rfl
  · rfl

/-- Two argument lists agree up to volatile fields: same keys in the same
order, and equal values on every key not in the volatile set `v`. -/
def ArgsAgree (v : List String) : List (String × String) → List (String × String) → Prop :=
  List.Forall₂ (fun p q => p.1 = q.1 ∧ (p.1 ∉ v → p.2 = q.2))

theorem filter_eq_of_argsAgree (v : List String)
    (xs ys : List (String × String)) (h : ArgsAgree v xs ys) :
    xs.filter (fun kv => decide (kv.1 ∉ v)) = ys.filter (fun kv => decide (kv.1 ∉ v)) := by
  induction h with
  | nil => rfl
  | cons hpq hrest ih =>
    rename_i p q xs' ys'
    by_cases hv : p.1 ∈ v
    · have hq : q.1 ∈ v := hpq.1 ▸ hv
      simp only [decide_not] at ih
      simp [List.filter, hv, hq, ih]
    · have hq : q.1 ∉ v := hpq.1 ▸ hv
      have hval : p.2 = q.2 := hpq.2 hv
      have hpq1 : p = q := Prod.ext hpq.1 hval
      simp only [decide_not] at ih
      simp [List.filter, hv, hq, ih, hpq1]

theorem normalize_eq_of_volatile_agree (vol : String → List String)
    (a b : Invocation) (hname : a.tool_name = b.tool_name)
    (hargs : ArgsAgree (vol a.tool_name) a.arguments b.arguments) :
    normalize vol a = normalize vol b := by
  unfold normalize
  rw [hname]
  rw [hname] at hargs
  rw [filter_eq_of_argsAgree (vol b.tool_name) a.arguments b.arguments hargs]

/-- C7: two tool invocations that differ only in fields the tool's schema
marks volatile receive the same normalized signature, so from equal detector
states `observe` produces the same signal and the same successor state. -/
theorem c7_volatile_fields_invisible (vol : String → List String)
    (st : LoopState) (a b : Invocation) (hname : a.tool_name = b.tool_name)
    (hargs : ArgsAgree (vol a.tool_name) a.arguments b.arguments) :
    LoopDetector.observe vol st a = LoopDetector.observe vol st b := by
  unfold LoopDetector.observe
  rw [normalize_eq_of_volatile_agree vol a b hname hargs]

/-- Volatile-field table of the witness scenario: the shell tool declares
its `timestamp` argument volatile. -/
def shellVolatile : String → List String :=
  fun name => if name = "shell" then ["timestamp"] else []

/-- Witness call `shell(cmd="ls", timestamp=T1)`. -/
def shellLsT1 : Invocation :=
  { tool_name := "shell", arguments := [("cmd", "ls"), ("timestamp", "T1")] }

/-- Witness call `shell(cmd="ls", timestamp=T2)`. -/
def shellLsT2 : Invocation :=
  { tool_name := "shell", arguments := [("cmd", "ls"), ("timestamp", "T2")] }

/-- Witness for C7: the spec's pair of shell calls differing only in the
volatile `timestamp` field is treated identically by the detector. -/
theorem c7_volatile_fields_invisible_witness :
    LoopDetector.observe shellVolatile detector43 shellLsT1 =
      LoopDetector.observe shellVolatile detector43 shellLsT2 :=
  c7_volatile_fields_invisible shellVolatile detector43 shellLsT1 shellLsT2 rfl
    (List.Forall₂.cons ⟨rfl, fun _ => rfl⟩
      (List.Forall₂.cons
        ⟨rfl, fun hnot => absurd (by simp [shellVolatile, shellLsT1]) hnot⟩
        List.Forall₂.nil))

/-- Modelled from the spec: a span of dropped turns is valid only if it does
not orphan a tool-call/tool-result pairing (§3 invariant 2, §4.2 step 2): no
surviving later tool result may reference a call id introduced inside the
span, and no tool result inside the span may reference a call id introduced
by a surviving earlier turn (keep both sides or drop both). -/
def spanClosed (pre span post : List Turn) : Bool :=
  decide ((∀ c ∈ refsOf post, c ∉ callIds span) ∧
          (∀ c ∈ refsOf span, c ∉ callIds pre))

/-- Longest-first search for a pairing-closed nonempty prefix of `run` (the
candidate evictable span), with everything beyond it together with `rest`
surviving; realizes the spec's longest-first tie-break (§4.2). -/
def tryClosed (pre run rest : List Turn) : Nat → Option (List Turn × List Turn)
  | 0 => none
  | n + 1 =>
    if spanClosed pre (run.take (n + 1)) (run.drop (n + 1) ++ rest) = true ∧
        run.take (n + 1) ≠ [] then
      some (run.take (n + 1), run.drop (n + 1) ++ rest)
    else tryClosed pre run rest n

/-- Maximal prefix of consecutive unpinned (evictable) turns, together with
the remainder of the sequence. -/
def unpinnedRun : List Turn → List Turn × List Turn
  | [] => ([], [])
  | t :: ts =>
    if t.pinned then ([], t :: ts)
    else
      let r := unpinnedRun ts
      (t :: r.1, r.2)

/-- Modelled from the spec: oldest-first scan for the next evictable span
(§4.2 steps 1-2): skip pinned turns, and at the first unpinned turn take the
longest pairing-closed prefix of the maximal unpinned run starting there; if
none is closed, move the start forward.  Returns the decomposition
(surviving head, span, surviving tail). -/
def findSpan (pre : List Turn) : List Turn → Option (List Turn × List Turn × List Turn)
  | [] => none
  | t :: ts =>
    if t.pinned then findSpan (pre ++ [t]) ts
    else
      match tryClosed pre (unpinnedRun (t :: ts)).1 (unpinnedRun (t :: ts)).2
          (unpinnedRun (t :: ts)).1.length with
      | some sq => some (pre, sq.1, sq.2)
      | none => findSpan (pre ++ [t]) ts

/-- Modelled from the spec: the synthetic assistant-authored summary turn
replacing a span (§4.2 step 3): condensed digest content, token count equal
to the configured summary overhead, and pinned once created so it is never
re-summarized. -/
def summaryTurn (overhead : Nat) : Turn :=
  { role := Role.assistant, content := "[conversation summary]",
    tool_calls := [], tool_call_id := none, token_count := overhead,
    pinned := true }

/-- Modelled from the spec: the compaction loop (§4.2 steps 4-5): while the
projected total exceeds the hard limit, replace the oldest maximal closed
evictable span with one summary turn; stop successfully as soon as the total
fits; fail (`none`, meaning BudgetExceeded) when no evictable span remains.
The fuel starts at the turn count, which bounds the number of summarization
steps since every step strictly decreases the number of unpinned turns. -/
def compactLoop (hard overhead : Nat) : Nat → List Turn → Option (List Turn)
  | 0, ts => if totalTokens ts ≤ hard then some ts else none
  | fuel + 1, ts =>
    if totalTokens ts ≤ hard then some ts
    else
      match findSpan [] ts with
      | none => none
      | some psq => compactLoop hard overhead fuel (psq.1 ++ summaryTurn overhead :: psq.2.2)

namespace ChatCompactor

/-- Modelled from the spec: `ChatCompactor.compact(turns, hard_limit)` with
the configured summary overhead; produces a shorter invariant-preserving
sequence whose total is at most `hard`, or `none` for BudgetExceeded. -/
def compact (turns : List Turn) (hard overhead : Nat) : Option (List Turn) :=
  compactLoop hard overhead turns.length turns

end ChatCompactor

/-- Explicit outcomes of the manager's operations (§6, §7). -/
inductive Outcome
  | ok
  | invariantViolation
  | budgetExceeded
deriving DecidableEq

/-- Modelled from the spec: the Session owned by the ContextManager (§3): the
ordered turn sequence, the running token total, and the configured budget
(soft limit, hard limit) plus the summary token overhead (§6). -/
structure Session where
  soft_limit : Nat
  hard_limit : Nat
  summary_overhead : Nat
  turns : List Turn
  token_total : Nat
deriving DecidableEq

/-- The session at the start of a conversation: no turns, zero total. -/
def emptySession (soft hard overhead : Nat) : Session :=
  { soft_limit := soft, hard_limit := hard, summary_overhead := overhead,
    turns := [], token_total := 0 }

/-- Modelled from the spec: `append_turn(turn)` (§4.1): adds the turn and
updates the token total; fails with InvariantViolation, leaving the session
unchanged, when the turn is a tool result whose `tool_call_id` matches no
`call_id` of the current session. -/
def append_turn (s : Session) (t : Turn) : Outcome × Session :=
  if t.role = Role.tool then
    match t.tool_call_id with
    | some c =>
      if c ∈ callIds s.turns then
        (Outcome.ok,
         { s with turns := s.turns ++ [t],
                  token_total := s.token_total + t.token_count })
      else (Outcome.invariantViolation, s)
    | none => (Outcome.invariantViolation, s)
  else
    (Outcome.ok,
     { s with turns := s.turns ++ [t],
              token_total := s.token_total + t.token_count })

/-- Modelled from the spec: `compact_if_needed()` (§4.1): when the running
total exceeds the soft limit, invoke `ChatCompactor.compact` with the hard
limit and replace the turn sequence with the result; a compaction failure is
returned as BudgetExceeded with the session unchanged. -/
def compact_if_needed (s : Session) : Outcome × Session :=
  if s.token_total ≤ s.soft_limit then (Outcome.ok, s)
  else
    match ChatCompactor.compact s.turns s.hard_limit s.summary_overhead with
    | some out =>
      (Outcome.ok, { s with turns := out, token_total := totalTokens out })
    | none => (Outcome.budgetExceeded, s)

/-- One operation of the manager's mutation interface. -/
inductive Op
  | append (t : Turn)
  | compactNow
deriving DecidableEq

/-- The session after one operation (a failed operation leaves it as it
was, so this is total). -/
def stepOp (s : Session) : Op → Session
  | Op.append t => (append_turn s t).2
  | Op.compactNow => (compact_if_needed s).2

/-- The session after a sequence of operations. -/
def runOps (s : Session) : List Op → Session
  | [] => s
  | o :: os => runOps (stepOp s o) os

/-- Helper for `reverseOkB`: walk the sequence with the index of the current
turn, checking the reverse pairing clause for assistant turns. -/
def reverseAux (all : List Turn) : Nat → List Turn → Bool
  | _, [] => true
  | i, t :: rest =>
    (if t.role = Role.assistant ∧ t.tool_calls ≠ [] then
       t.tool_calls.all (fun c => decide (c.call_id ∈ refsOf all)) ||
         decide (i + 1 = all.length)
     else true) &&
    reverseAux all (i + 1) rest

/-- Reverse half of the pairing clause as the claim states it: every
assistant tool call has a matching tool-result turn, or its turn is the most
recent turn awaiting one. -/
def reverseOkB (ts : List Turn) : Bool := reverseAux ts 0 ts

theorem pairedFromB_append (seen : List String) (xs ys : List Turn) :
    pairedFromB seen (xs ++ ys) =
      (pairedFromB seen xs && pairedFromB (seen ++ callIds xs) ys) := by
  induction xs generalizing seen with
  | nil => simp [pairedFromB, callIds]
  | cons t xs ih =>
    simp [pairedFromB, callIds, ih, List.append_assoc, Bool.and_assoc]

theorem pairedFromB_mono (ts : List Turn) : ∀ (s s' : List String),
    (∀ c ∈ refsOf ts, c ∈ s → c ∈ s') →
    pairedFromB s ts = true → pairedFromB s' ts = true := by
  induction ts with
  | nil => intro s s' _ _; rfl
  | cons t ts ih =>
    intro s s' h hp
    rw [pairedFromB, Bool.and_eq_true] at hp
    rw [pairedFromB, Bool.and_eq_true]
    obtain ⟨h1, h2⟩ := hp
    refine ⟨?_, ?_⟩
    · unfold headOk at h1 ⊢
      by_cases hr : t.role = Role.tool
      · rw [if_pos hr] at h1
        rw [if_pos hr]
        cases hc : t.tool_call_id with
        | none => rw [hc] at h1; exact (Bool.false_ne_true h1).elim
        | some c =>
          rw [hc] at h1
          have hmem : c ∈ s := of_decide_eq_true h1
          have hin : c ∈ refsOf (t :: ts) := by
            simp [refsOf, resultRef, hr, hc]
          exact decide_eq_true (h c hin hmem)
      · rw [if_neg hr]
    · refine ih (s ++ turnIds t) (s' ++ turnIds t) ?_ h2
      intro c hc hmem
      rcases List.mem_append.mp hmem with h' | h'
      · refine List.mem_append.mpr (Or.inl (h c ?_ h'))
        simp [refsOf]
        exact Or.inr hc
      · exact List.mem_append.mpr (Or.inr h')

theorem turnIds_summary (ov : Nat) : turnIds (summaryTurn ov) = [] := by
  simp [turnIds, summaryTurn]

theorem paired_replace_span (pre span post : List Turn) (ov : Nat)
    (hclosed : spanClosed pre span post = true)
    (hp : pairedFromB [] (pre ++ (span ++ post)) = true) :
    pairedFromB [] (pre ++ summaryTurn ov :: post) = true := by
  have hc := of_decide_eq_true hclosed
  rw [pairedFromB_append, Bool.and_eq_true] at hp
  obtain ⟨hpre, hrest⟩ := hp
  rw [pairedFromB_append, Bool.and_eq_true] at hrest
  obtain ⟨_, hpost⟩ := hrest
  rw [pairedFromB_append, Bool.and_eq_true]
  refine ⟨hpre, ?_⟩
  rw [pairedFromB, Bool.and_eq_true]
  constructor
  · simp [headOk, summaryTurn]
  · rw [turnIds_summary]
    refine pairedFromB_mono post _ _ ?_ hpost
    intro c hcpost hmem
    simp only [List.nil_append, List.append_nil] at hmem ⊢
    rcases List.mem_append.mp hmem with h' | h'
    · exact h'
    · exact absurd h' (hc.1 c hcpost)

theorem unpinnedRun_spec (ts : List Turn) :
    (unpinnedRun ts).1 ++ (unpinnedRun ts).2 = ts ∧
    ∀ t ∈ (unpinnedRun ts).1, t.pinned = false := by
  induction ts with
  | nil => simp [unpinnedRun]
  | cons t ts ih =>
    by_cases h : t.pinned
    · simp [unpinnedRun, h]
    · simp only [unpinnedRun, h, Bool.false_eq_true, if_false]
      constructor
      · simp [ih.1]
      · intro u hu
        rcases List.mem_cons.mp hu with h' | h'
        · subst h'; exact Bool.eq_false_iff.mpr h
        · exact ih.2 u h'

theorem tryClosed_spec (pre run rest : List Turn) : ∀ (n : Nat) (s q : List Turn),
    tryClosed pre run rest n = some (s, q) →
    s ++ q = run ++ rest ∧ s ≠ [] ∧ spanClosed pre s q = true ∧
    ∀ t ∈ s, t ∈ run := by
  intro n
  induction n with
  | zero => intro s q h; exact absurd h (by simp [tryClosed])
  | succ n ih =>
    intro s q h
    rw [tryClosed] at h
    split at h
    · rename_i hcond
      simp only [Option.some.injEq, Prod.mk.injEq] at h
      obtain ⟨hs, hq⟩ := h
      subst hs; subst hq
      refine ⟨?_, hcond.2, hcond.1, ?_⟩
      · rw [← List.append_assoc, List.take_append_drop]
      · intro t ht; exact List.take_subset _ _ ht
    · exact ih s q h

theorem findSpan_spec (ts : List Turn) : ∀ (pre p s q : List Turn),
    findSpan pre ts = some (p, s, q) →
    p ++ (s ++ q) = pre ++ ts ∧ s ≠ [] ∧ (∀ t ∈ s, t.pinned = false) ∧
    spanClosed p s q = true := by
  induction ts with
  | nil => intro pre p s q h; exact absurd h (by simp [findSpan])
  | cons t ts ih =>
    intro pre p s q h
    rw [findSpan] at h
    split at h
    · have hspec := ih (pre ++ [t]) p s q h
      refine ⟨?_, hspec.2.1, hspec.2.2.1, hspec.2.2.2⟩
      rw [hspec.1, List.append_assoc]
      rfl
    · rename_i hpin
      cases htc : tryClosed pre (unpinnedRun (t :: ts)).1 (unpinnedRun (t :: ts)).2
          (unpinnedRun (t :: ts)).1.length with
      | none =>
        rw [htc] at h
        have hspec := ih (pre ++ [t]) p s q h
        refine ⟨?_, hspec.2.1, hspec.2.2.1, hspec.2.2.2⟩
        rw [hspec.1, List.append_assoc]
        rfl
      | some sq =>
        rw [htc] at h
        simp only [Option.some.injEq, Prod.mk.injEq] at h
        obtain ⟨hp, hs, hq⟩ := h
        subst hp; subst hs; subst hq
        have hur := unpinnedRun_spec (t :: ts)
        have hts := tryClosed_spec pre (unpinnedRun (t :: ts)).1
          (unpinnedRun (t :: ts)).2 (unpinnedRun (t :: ts)).1.length sq.1 sq.2
          (by
            cases hsq : sq
            simpa [hsq] using htc)
        refine ⟨?_, hts.2.1, ?_, hts.2.2.1⟩
        · rw [hts.1, hur.1]
        · intro u hu
          exact hur.2 u (hts.2.2.2 u hu)

theorem filter_eq_nil_of_false (p : Turn → Bool) (l : List Turn)
    (h : ∀ a ∈ l, p a = false) : l.filter p = [] := by
  induction l with
  | nil => rfl
  | cons t l ih =>
    have ht := h t (List.mem_cons_self t l)
    simp only [List.filter_cons, ht, Bool.false_eq_true, if_false]
    exact ih (fun a ha => h a (List.mem_cons_of_mem t ha))

theorem pinnedTotal_append (xs ys : List Turn) :
    pinnedTotal (xs ++ ys) = pinnedTotal xs + pinnedTotal ys := by
  simp [pinnedTotal, List.filter_append, totalTokens_append]

theorem pinnedTotal_step_ge (p s q : List Turn) (ov : Nat)
    (hs : ∀ t ∈ s, t.pinned = false) :
    pinnedTotal (p ++ (s ++ q)) ≤ pinnedTotal (p ++ summaryTurn ov :: q) := by
  have h1 : pinnedTotal s = 0 := by
    simp [pinnedTotal, filter_eq_nil_of_false _ s hs, totalTokens]
  have h2 : pinnedTotal (summaryTurn ov :: q) = ov + pinnedTotal q := by
    simp [pinnedTotal, List.filter, summaryTurn, totalTokens]
  rw [pinnedTotal_append, pinnedTotal_append, pinnedTotal_append, h1, h2]
  omega

theorem filter_pinned_step_sublist (p s q : List Turn) (ov : Nat)
    (hs : ∀ t ∈ s, t.pinned = false) :
    List.Sublist ((p ++ (s ++ q)).filter (fun t => t.pinned))
      ((p ++ summaryTurn ov :: q).filter (fun t => t.pinned)) := by
  simp only [List.filter_append]
  rw [filter_eq_nil_of_false _ s hs]
  simp only [List.nil_append]
  have hsum : List.filter (fun t => t.pinned) (summaryTurn ov :: q) =
      summaryTurn ov :: List.filter (fun t => t.pinned) q := by
    simp [List.filter_cons, summaryTurn]
  rw [hsum]
  exact (List.sublist_cons_of_sublist _ (List.Sublist.refl _)).append_left _

theorem compactLoop_some_le (hard ov : Nat) : ∀ (fuel : Nat) (ts out : List Turn),
    compactLoop hard ov fuel ts = some out → totalTokens out ≤ hard := by
  intro fuel
  induction fuel with
  | zero =>
    intro ts out h
    rw [compactLoop] at h
    split at h
    · rename_i hle
      simp only [Option.some.injEq] at h
      subst h; exact hle
    · exact absurd h (by simp)
  | succ fuel ih =>
    intro ts out h
    rw [compactLoop] at h
    split at h
    · rename_i hle
      simp only [Option.some.injEq] at h
      subst h; exact hle
    · split at h
      · exact absurd h (by simp)
      · exact ih _ _ h

theorem compactLoop_paired (hard ov : Nat) : ∀ (fuel : Nat) (ts out : List Turn),
    pairedFromB [] ts = true → compactLoop hard ov fuel ts = some out →
    pairedFromB [] out = true := by
  intro fuel
  induction fuel with
  | zero =>
    intro ts out hp h
    rw [compactLoop] at h
    split at h
    · simp only [Option.some.injEq] at h
      subst h; exact hp
    · exact absurd h (by simp)
  | succ fuel ih =>
    intro ts out hp h
    rw [compactLoop] at h
    split at h
    · simp only [Option.some.injEq] at h
      subst h; exact hp
    · cases hfs : findSpan [] ts with
      | none => rw [hfs] at h; exact absurd h (by simp)
      | some psq =>
        rw [hfs] at h
        have hspec := findSpan_spec ts [] psq.1 psq.2.1 psq.2.2
          (by rw [hfs])
        have hdec : psq.1 ++ (psq.2.1 ++ psq.2.2) = ts := by
          simpa using hspec.1
        refine ih _ _ ?_ h
        refine paired_replace_span psq.1 psq.2.1 psq.2.2 ov hspec.2.2.2 ?_
        rw [hdec]; exact hp

theorem compactLoop_pinned_sublist (hard ov : Nat) : ∀ (fuel : Nat) (ts out : List Turn),
    compactLoop hard ov fuel ts = some out →
    List.Sublist (ts.filter (fun t => t.pinned)) (out.filter (fun t => t.pinned)) := by
  intro fuel
  induction fuel with
  | zero =>
    intro ts out h
    rw [compactLoop] at h
    split at h
    · simp only [Option.some.injEq] at h
      subst h; exact List.Sublist.refl _
    · exact absurd h (by simp)
  | succ fuel ih =>
    intro ts out h
    rw [compactLoop] at h
    split at h
    · simp only [Option.some.injEq] at h
      subst h; exact List.Sublist.refl _
    · cases hfs : findSpan [] ts with
      | none => rw [hfs] at h; exact absurd h (by simp)
      | some psq =>
        rw [hfs] at h
        have hspec := findSpan_spec ts [] psq.1 psq.2.1 psq.2.2
          (by rw [hfs])
        have hdec : psq.1 ++ (psq.2.1 ++ psq.2.2) = ts := by
          simpa using hspec.1
        have hstep := filter_pinned_step_sublist psq.1 psq.2.1 psq.2.2 ov
          hspec.2.2.1
        rw [hdec] at hstep
        exact hstep.trans (ih _ _ h)

theorem compactLoop_none_of_pinned_gt (hard ov : Nat) : ∀ (fuel : Nat) (ts : List Turn),
    hard < pinnedTotal ts → compactLoop hard ov fuel ts = none := by
  intro fuel
  induction fuel with
  | zero =>
    intro ts hgt
    rw [compactLoop]
    rw [if_neg]
    intro hle
    exact absurd (le_trans (pinnedTotal_le_total ts) hle) (Nat.not_le_of_lt hgt)
  | succ fuel ih =>
    intro ts hgt
    rw [compactLoop]
    rw [if_neg]
    · cases hfs : findSpan [] ts with
      | none => rfl
      | some psq =>
        have hspec := findSpan_spec ts [] psq.1 psq.2.1 psq.2.2
          (by rw [hfs])
        have hdec : psq.1 ++ (psq.2.1 ++ psq.2.2) = ts := by
          simpa using hspec.1
        refine ih _ ?_
        have hstep := pinnedTotal_step_ge psq.1 psq.2.1 psq.2.2 ov hspec.2.2.1
        rw [hdec] at hstep
        omega
    · intro hle
      exact absurd (le_trans (pinnedTotal_le_total ts) hle) (Nat.not_le_of_lt hgt)

theorem compactLoop_of_le (hard ov : Nat) (fuel : Nat) (ts : List Turn)
    (h : totalTokens ts ≤ hard) : compactLoop hard ov fuel ts = some ts := by
  cases fuel with
  | zero => rw [compactLoop, if_pos h]
  | succ fuel => rw [compactLoop, if_pos h]

theorem compact_noop_of_le (s : Session)
    (hc : s.token_total = totalTokens s.turns)
    (hh : totalTokens s.turns ≤ s.hard_limit) :
    compact_if_needed s = (Outcome.ok, s) := by
  by_cases hsoft : s.token_total ≤ s.soft_limit
  · simp [compact_if_needed, hsoft]
  · have hcp : ChatCompactor.compact s.turns s.hard_limit s.summary_overhead =
        some s.turns := compactLoop_of_le _ _ _ _ hh
    have heq : compact_if_needed s =
        (Outcome.ok, { s with turns := s.turns, token_total := totalTokens s.turns }) := by
      simp [compact_if_needed, hsoft, hcp]
    rw [heq, ← hc]

theorem append_failed_unchanged (s : Session) (t : Turn)
    (hfail : (append_turn s t).1 ≠ Outcome.ok) : (append_turn s t).2 = s := by
  by_cases hr : t.role = Role.tool
  · cases hcid : t.tool_call_id with
    | none =>
      have heq : append_turn s t = (Outcome.invariantViolation, s) := by
        simp [append_turn, hr, hcid]
      rw [heq]
    | some c =>
      by_cases hm : c ∈ callIds s.turns
      · have heq : (append_turn s t).1 = Outcome.ok := by
          simp [append_turn, hr, hcid, hm]
        exact absurd heq hfail
      · have heq : append_turn s t = (Outcome.invariantViolation, s) := by
          simp [append_turn, hr, hcid, hm]
        rw [heq]
  · have heq : (append_turn s t).1 = Outcome.ok := by
      simp [append_turn, hr]
    exact absurd heq hfail

theorem compact_failed_unchanged (s : Session)
    (hfail : (compact_if_needed s).1 ≠ Outcome.ok) : (compact_if_needed s).2 = s := by
  by_cases hsoft : s.token_total ≤ s.soft_limit
  · have heq : (compact_if_needed s).1 = Outcome.ok := by
      simp [compact_if_needed, hsoft]
    exact absurd heq hfail
  · cases hcp : ChatCompactor.compact s.turns s.hard_limit s.summary_overhead with
    | none =>
      have heq : compact_if_needed s = (Outcome.budgetExceeded, s) := by
        simp [compact_if_needed, hsoft, hcp]
      rw [heq]
    | some out =>
      have heq : (compact_if_needed s).1 = Outcome.ok := by
        simp [compact_if_needed, hsoft, hcp]
      exact absurd heq hfail

theorem append_iv_iff (s : Session) (t : Turn) :
    (append_turn s t).1 = Outcome.invariantViolation ↔
      t.role = Role.tool ∧ ∀ c, t.tool_call_id = some c → c ∉ callIds s.turns := by
  constructor
  · intro hiv
    by_cases hr : t.role = Role.tool
    · refine ⟨hr, ?_⟩
      intro c hcid
      by_cases hm : c ∈ callIds s.turns
      · have heq : (append_turn s t).1 = Outcome.ok := by
          simp [append_turn, hr, hcid, hm]
        rw [heq] at hiv
        exact Outcome.noConfusion hiv
      · exact hm
    · have heq : (append_turn s t).1 = Outcome.ok := by
        simp [append_turn, hr]
      rw [heq] at hiv
      exact Outcome.noConfusion hiv
  · intro h
    obtain ⟨hr, hnone⟩ := h
    cases hcid : t.tool_call_id with
    | none => simp [append_turn, hr, hcid]
    | some c => simp [append_turn, hr, hcid, hnone c hcid]

theorem append_paired (s : Session) (t : Turn)
    (hp : pairedFromB [] s.turns = true) :
    pairedFromB [] (append_turn s t).2.turns = true := by
  by_cases hr : t.role = Role.tool
  · cases hc : t.tool_call_id with
    | none =>
      have heq : (append_turn s t).2 = s := by
        simp [append_turn, hr, hc]
      rw [heq]; exact hp
    | some c =>
      by_cases hm : c ∈ callIds s.turns
      · have heq : (append_turn s t).2.turns = s.turns ++ [t] := by
          simp [append_turn, hr, hc, hm]
        rw [heq, pairedFromB_append, Bool.and_eq_true]
        refine ⟨hp, ?_⟩
        rw [pairedFromB, Bool.and_eq_true]
        refine ⟨?_, rfl⟩
        unfold headOk
        rw [if_pos hr, hc]
        exact decide_eq_true (by simpa using hm)
      · have heq : (append_turn s t).2 = s := by
          simp [append_turn, hr, hc, hm]
        rw [heq]; exact hp
  · have heq : (append_turn s t).2.turns = s.turns ++ [t] := by
      simp [append_turn, hr]
    rw [heq, pairedFromB_append, Bool.and_eq_true]
    refine ⟨hp, ?_⟩
    rw [pairedFromB, Bool.and_eq_true]
    refine ⟨?_, rfl⟩
    unfold headOk
    rw [if_neg hr]

theorem compact_paired (s : Session)
    (hp : pairedFromB [] s.turns = true) :
    pairedFromB [] (compact_if_needed s).2.turns = true := by
  by_cases hsoft : s.token_total ≤ s.soft_limit
  · have heq : (compact_if_needed s).2 = s := by
      simp [compact_if_needed, hsoft]
    rw [heq]; exact hp
  · cases hcp : ChatCompactor.compact s.turns s.hard_limit s.summary_overhead with
    | none =>
      have heq : (compact_if_needed s).2 = s := by
        simp [compact_if_needed, hsoft, hcp]
      rw [heq]; exact hp
    | some out =>
      have heq : (compact_if_needed s).2.turns = out := by
        simp [compact_if_needed, hsoft, hcp]
      rw [heq]
      exact compactLoop_paired s.hard_limit s.summary_overhead s.turns.length
        s.turns out hp hcp

theorem runOps_paired (ops : List Op) : ∀ s : Session,
    pairedFromB [] s.turns = true → pairedFromB [] (runOps s ops).turns = true := by
  induction ops with
  | nil => intro s hp; exact hp
  | cons o os ih =>
    intro s hp
    rw [runOps]
    refine ih _ ?_
    cases o with
    | append t => exact append_paired s t hp
    | compactNow => exact compact_paired s hp

theorem compact_result_consistent (s : Session)
    (hc : s.token_total = totalTokens s.turns)
    (hsh : s.soft_limit ≤ s.hard_limit)
    (hok : (compact_if_needed s).1 = Outcome.ok) :
    (compact_if_needed s).2.token_total = totalTokens (compact_if_needed s).2.turns ∧
    totalTokens (compact_if_needed s).2.turns ≤ s.hard_limit ∧
    (compact_if_needed s).2.hard_limit = s.hard_limit := by
  by_cases hsoft : s.token_total ≤ s.soft_limit
  · have heq : (compact_if_needed s).2 = s := by
      simp [compact_if_needed, hsoft]
    rw [heq]
    refine ⟨hc, ?_, rfl⟩
    omega
  · cases hcp : ChatCompactor.compact s.turns s.hard_limit s.summary_overhead with
    | none =>
      have heq : (compact_if_needed s).1 = Outcome.budgetExceeded := by
        simp [compact_if_needed, hsoft, hcp]
      rw [heq] at hok
      exact Outcome.noConfusion hok
    | some out =>
      have h2 : (compact_if_needed s).2.turns = out := by
        simp [compact_if_needed, hsoft, hcp]
      have h3 : (compact_if_needed s).2.token_total = totalTokens out := by
        simp [compact_if_needed, hsoft, hcp]
      have h4 : (compact_if_needed s).2.hard_limit = s.hard_limit := by
        simp [compact_if_needed, hsoft, hcp]
      rw [h2, h3, h4]
      refine ⟨rfl, ?_, rfl⟩
      exact compactLoop_some_le _ _ _ _ _ hcp

/-- Repeated application of `compact_if_needed`, keeping the resulting
session each time. -/
def iterCompact : Nat → Session → Session
  | 0, s => s
  | n + 1, s => iterCompact n (compact_if_needed s).2

/-- A pinned system turn carrying `tok` tokens, for concrete scenarios. -/
def pinnedSystemTurn (tok : Nat) : Turn :=
  { role := Role.system, content := "system policy", tool_calls := [],
    tool_call_id := none, token_count := tok, pinned := true }

/-- An unpinned user turn carrying `tok` tokens, for concrete scenarios. -/
def plainUserTurn (tok : Nat) : Turn :=
  { role := Role.user, content := "user request", tool_calls := [],
    tool_call_id := none, token_count := tok, pinned := false }

/-- C1 (amended): whenever `compact_if_needed` succeeds the resulting token
total is at most the hard limit, and whenever the pinned turns alone exceed
the hard limit it returns BudgetExceeded with the session unchanged; the
claim's converse — that pinned-only total at most the hard limit guarantees
success — is refuted by `c1_counterexample`, because a summarized span
leaves behind a summary turn with a fixed token overhead. -/
theorem c1_compact_budget_postcondition (s : Session)
    (hc : s.token_total = totalTokens s.turns)
    (hsh : s.soft_limit ≤ s.hard_limit) :
    ((compact_if_needed s).1 = Outcome.ok →
      totalTokens (compact_if_needed s).2.turns ≤ s.hard_limit) ∧
    (s.hard_limit < pinnedTotal s.turns →
      compact_if_needed s = (Outcome.budgetExceeded, s)) := by
  constructor
  · intro hok
    exact (compact_result_consistent s hc hsh hok).2.1
  · intro hgt
    have hns : ¬ s.token_total ≤ s.soft_limit := by
      have h1 := pinnedTotal_le_total s.turns
      omega
    have hcp : ChatCompactor.compact s.turns s.hard_limit s.summary_overhead = none :=
      compactLoop_none_of_pinned_gt s.hard_limit s.summary_overhead
        s.turns.length s.turns hgt
    simp [compact_if_needed, hns, hcp]

/-- The spec's fatal-budget scenario: the pinned turns alone total 5000
tokens against a hard limit of 4000. -/
def sessionFatal : Session :=
  { soft_limit := 4000, hard_limit := 4000, summary_overhead := 50,
    turns := [pinnedSystemTurn 5000], token_total := 5000 }

/-- Witness for C1: on the spec's fatal-budget scenario (pinned 5000,
hard limit 4000), `compact_if_needed` returns BudgetExceeded and leaves the
session unchanged. -/
theorem c1_compact_budget_postcondition_witness :
    sessionFatal.hard_limit < pinnedTotal sessionFatal.turns ∧
    compact_if_needed sessionFatal = (Outcome.budgetExceeded, sessionFatal) :=
  ⟨by decide,
   (c1_compact_budget_postcondition sessionFatal (by decide) (by decide)).2
     (by decide)⟩

/-- A session whose pinned turns alone (4000 tokens) fit the hard limit
(4000), but whose one evictable 100-token turn can only be replaced by a
10-token summary turn, leaving 4010 > 4000. -/
def cx1Session : Session :=
  { soft_limit := 3000, hard_limit := 4000, summary_overhead := 10,
    turns := [pinnedSystemTurn 4000, plainUserTurn 100], token_total := 4100 }

/-- Counterexample to C1 as stated: the pinned turns alone fit the hard
limit, yet `compact_if_needed` returns BudgetExceeded rather than
succeeding, because the summary turn's fixed overhead keeps the total over
the hard limit. -/
theorem c1_compact_budget_counterexample :
    pinnedTotal cx1Session.turns ≤ cx1Session.hard_limit ∧
    (compact_if_needed cx1Session).1 = Outcome.budgetExceeded := by
  constructor
  · decide
  · decide

/-- C2 (amended): for every sequence of appends and compactions starting
from the empty session, every surviving tool-result turn's `tool_call_id`
matches the `call_id` of some earlier surviving assistant turn (the forward
pairing half); the claim's reverse half — every surviving assistant call is
matched or sits on the most recent turn — fails on legal append sequences,
see `c2_pairing_counterexample`. -/
theorem c2_forward_pairing_invariant (soft hard overhead : Nat) (ops : List Op) :
    pairedFromB [] (runOps (emptySession soft hard overhead) ops).turns = true :=
  runOps_paired ops (emptySession soft hard overhead) rfl

/-- An assistant turn requesting two tool calls `c1` and `c2`. -/
def asstTwoCalls : Turn :=
  { role := Role.assistant, content := "",
    tool_calls := [{ call_id := "c1", tool_name := "readFile",
                     arguments := [("path", "a")] },
                   { call_id := "c2", tool_name := "readFile",
                     arguments := [("path", "b")] }],
    tool_call_id := none, token_count := 30, pinned := false }

/-- The tool-result turn answering call `c1` only. -/
def toolResC1 : Turn :=
  { role := Role.tool, content := "file data", tool_calls := [],
    tool_call_id := some "c1", token_count := 10, pinned := false }

/-- Counterexample to C2 as stated: after the legal append sequence
assistant(c1, c2) then tool-result(c1) — both appends succeed — the call
`c2` has no matching result and its assistant turn is not the most recent
turn, so the claimed two-sided invariant is false while the forward half
still holds. -/
theorem c2_pairing_counterexample :
    (pairedFromB []
        (runOps (emptySession 1000 2000 5)
          [Op.append asstTwoCalls, Op.append toolResC1]).turns &&
      reverseOkB
        (runOps (emptySession 1000 2000 5)
          [Op.append asstTwoCalls, Op.append toolResC1]).turns) = false := by
  decide

/-- C3: every turn marked pinned in the input to `ChatCompactor.compact`
appears, as the identical turn value (same role, content, tool calls, token
count), in the output, in the original relative order: the pinned turns of
the input form a sublist of the output, and in particular every pinned input
turn is a member of the output. -/
theorem c3_pinned_turn_permanence (ts : List Turn) (hard overhead : Nat)
    (out : List Turn) (h : ChatCompactor.compact ts hard overhead = some out) :
    List.Sublist (ts.filter (fun t => t.pinned)) out ∧
    ∀ t ∈ ts, t.pinned = true → t ∈ out := by
  have h1 := compactLoop_pinned_sublist hard overhead ts.length ts out h
  have h2 : List.Sublist (ts.filter (fun t => t.pinned)) out :=
    h1.trans (List.filter_sublist out)
  refine ⟨h2, ?_⟩
  intro t ht hpin
  have hmem : t ∈ ts.filter (fun t => t.pinned) :=
    List.mem_filter.mpr ⟨ht, by simp [hpin]⟩
  exact h2.subset hmem

/-- Input for the C3 witness: one pinned system turn. -/
def ts3 : List Turn := [pinnedSystemTurn 10]

/-- Witness for C3: on a concrete successful compaction the pinned input
turns survive into the output. -/
theorem c3_pinned_turn_permanence_witness :
    ChatCompactor.compact ts3 100 5 = some ts3 ∧
    (List.Sublist (ts3.filter (fun t => t.pinned)) ts3 ∧
     ∀ t ∈ ts3, t.pinned = true → t ∈ ts3) :=
  ⟨by decide, c3_pinned_turn_permanence ts3 100 5 ts3 (by decide)⟩

/-- C5: on a session whose token total is consistent and already at most the
hard limit, `compact_if_needed` succeeds and returns the identical session —
in particular the identical turn sequence — whether or not the soft limit
triggers an actual compaction pass. -/
theorem c5_compaction_idempotent (s : Session)
    (hc : s.token_total = totalTokens s.turns)
    (hh : totalTokens s.turns ≤ s.hard_limit) :
    compact_if_needed s = (Outcome.ok, s) :=
  compact_noop_of_le s hc hh

/-- An under-budget session that still exceeds the soft limit, so the
compactor is actually invoked. -/
def s5 : Session :=
  { soft_limit := 10, hard_limit := 100, summary_overhead := 1,
    turns := [plainUserTurn 50], token_total := 50 }

/-- Witness for C5: compacting the concrete under-budget session returns it
unchanged. -/
theorem c5_compaction_idempotent_witness :
    compact_if_needed s5 = (Outcome.ok, s5) :=
  c5_compaction_idempotent s5 (by decide) (by decide)

/-- C6: a failed `append_turn` or `compact_if_needed` leaves the session
exactly as it was (all-or-nothing), and `append_turn` fails with
InvariantViolation exactly when the appended turn is a tool-result turn
whose `tool_call_id` matches no `call_id` of the current session. -/
theorem c6_failures_leave_session_unchanged (s : Session) (t : Turn) :
    ((append_turn s t).1 ≠ Outcome.ok → (append_turn s t).2 = s) ∧
    ((compact_if_needed s).1 ≠ Outcome.ok → (compact_if_needed s).2 = s) ∧
    ((append_turn s t).1 = Outcome.invariantViolation ↔
      t.role = Role.tool ∧ ∀ c, t.tool_call_id = some c → c ∉ callIds s.turns) :=
  ⟨append_failed_unchanged s t, compact_failed_unchanged s, append_iv_iff s t⟩

/-- A tool-result turn referencing the unknown call id `zz`. -/
def badToolTurn : Turn :=
  { role := Role.tool, content := "", tool_calls := [],
    tool_call_id := some "zz", token_count := 7, pinned := false }

/-- Witness for C6: appending a tool result with an unknown call id to the
empty session fails with InvariantViolation and appends nothing. -/
theorem c6_failures_leave_session_unchanged_witness :
    (append_turn (emptySession 10 20 1) badToolTurn).1 =
      Outcome.invariantViolation ∧
    (append_turn (emptySession 10 20 1) badToolTurn).2 = emptySession 10 20 1 := by
  have h := c6_failures_leave_session_unchanged (emptySession 10 20 1) badToolTurn
  have h1 : (append_turn (emptySession 10 20 1) badToolTurn).1 =
      Outcome.invariantViolation := by
    refine h.2.2.mpr ⟨rfl, ?_⟩
    intro c hc
    simp [emptySession, callIds]
  refine ⟨h1, h.1 ?_⟩
  rw [h1]
  intro hk
  exact Outcome.noConfusion hk

/-- C8 (amended): `compact_if_needed` is a total, terminating operation; on
a consistent session it either succeeds — in which case the resulting total
is at most the hard limit and every further call is a no-op returning the
identical session (a fixpoint, so the iteration terminates after at most one
effective pass) — or fails, leaving the session unchanged; the claim's
premise that pinned-only total at most the hard limit suffices for the
success case is refuted by `c8_convergence_counterexample`. -/
theorem c8_compaction_convergence (s : Session)
    (hc : s.token_total = totalTokens s.turns)
    (hsh : s.soft_limit ≤ s.hard_limit) :
    ((compact_if_needed s).1 = Outcome.ok →
      totalTokens (compact_if_needed s).2.turns ≤ s.hard_limit ∧
      compact_if_needed (compact_if_needed s).2 =
        (Outcome.ok, (compact_if_needed s).2)) ∧
    ((compact_if_needed s).1 ≠ Outcome.ok → (compact_if_needed s).2 = s) := by
  constructor
  · intro hok
    have hcons := compact_result_consistent s hc hsh hok
    refine ⟨hcons.2.1, ?_⟩
    refine compact_noop_of_le _ hcons.1 ?_
    rw [hcons.2.2]
    exact hcons.2.1
  · exact compact_failed_unchanged s

/-- A consistent session over the soft limit but under the hard limit. -/
def s8 : Session :=
  { soft_limit := 10, hard_limit := 100, summary_overhead := 1,
    turns := [plainUserTurn 40], token_total := 40 }

/-- Witness for C8: on a concrete session the successful compaction lands at
most at the hard limit and a second call is a no-op. -/
theorem c8_compaction_convergence_witness :
    totalTokens (compact_if_needed s8).2.turns ≤ s8.hard_limit ∧
    compact_if_needed (compact_if_needed s8).2 =
      (Outcome.ok, (compact_if_needed s8).2) :=
  (c8_compaction_convergence s8 (by decide) (by decide)).1 (by decide)

/-- A session whose pinned turns (3990 tokens) fit the hard limit (4000),
but whose evictable 200-token turn summarizes to a 25-token summary,
projecting 4015 > 4000. -/
def cx8Session : Session :=
  { soft_limit := 3000, hard_limit := 4000, summary_overhead := 25,
    turns := [pinnedSystemTurn 3990, plainUserTurn 200], token_total := 4190 }

/-- Counterexample to C8 as stated: the pinned-only total fits the hard
limit, yet iterating `compact_if_needed` never brings the total under the
hard limit — the session is a fixpoint of the iteration with its total still
above the hard limit, each call failing with BudgetExceeded. -/
theorem c8_convergence_counterexample :
    pinnedTotal cx8Session.turns ≤ cx8Session.hard_limit ∧
    iterCompact 3 cx8Session = cx8Session ∧
    cx8Session.hard_limit < totalTokens cx8Session.turns ∧
    (compact_if_needed cx8Session).1 = Outcome.budgetExceeded := by
  refine ⟨by decide, by decide, by decide, by decide⟩

/-- The eleven built-in tool classes imported by
`src/friday_ai/tools/builtin/__init__.py`. -/
inductive ToolClass
  | readFileTool
  | writeFileTool
  | editTool
  | shellTool
  | listDirTool
  | grepTool
  | globTool
  | webSearchTool
  | webFetchTool
  | todosTool
  | memoryTool
deriving DecidableEq

/-- Python class name of each built-in tool class. -/
def ToolClass.className : ToolClass → String
  | ToolClass.readFileTool => "ReadFileTool"
  | ToolClass.writeFileTool => "WriteFileTool"
  | ToolClass.editTool => "EditTool"
  | ToolClass.shellTool => "ShellTool"
  | ToolClass.listDirTool => "ListDirTool"
  | ToolClass.grepTool => "GrepTool"
  | ToolClass.globTool => "GlobTool"
  | ToolClass.webSearchTool => "WebSearchTool"
  | ToolClass.webFetchTool => "WebFetchTool"
  | ToolClass.todosTool => "TodosTool"
  | ToolClass.memoryTool => "MemoryTool"

/-- The `__all__` export list of `src/friday_ai/tools/builtin/__init__.py`
(lines 13-25), in source order. -/
def builtin_all : List String :=
  ["ReadFileTool", "WriteFileTool", "EditTool", "ShellTool", "ListDirTool",
   "GrepTool", "GlobTool", "WebSearchTool", "WebFetchTool", "TodosTool",
   "MemoryTool"]

/-- The body of `get_all_builtin_tools()` in
`src/friday_ai/tools/builtin/__init__.py` (lines 28-41): a literal list of
the eleven tool classes, so every call returns this same list. -/
def get_all_builtin_tools : List ToolClass :=
  [ToolClass.readFileTool, ToolClass.writeFileTool, ToolClass.editTool,
   ToolClass.shellTool, ToolClass.listDirTool, ToolClass.grepTool,
   ToolClass.globTool, ToolClass.webSearchTool, ToolClass.webFetchTool,
   ToolClass.todosTool, ToolClass.memoryTool]

/-- C9: `get_all_builtin_tools()` returns the fixed eleven-element list
ReadFileTool, WriteFileTool, EditTool, ShellTool, ListDirTool, GrepTool,
GlobTool, WebSearchTool, WebFetchTool, TodosTool, MemoryTool in that order,
and the names of that list equal the module's `__all__` export list. -/
theorem c9_builtin_tools_fixed_list :
    get_all_builtin_tools =
      [ToolClass.readFileTool, ToolClass.writeFileTool, ToolClass.editTool,
       ToolClass.shellTool, ToolClass.listDirTool, ToolClass.grepTool,
       ToolClass.globTool, ToolClass.webSearchTool, ToolClass.webFetchTool,
       ToolClass.todosTool, ToolClass.memoryTool] ∧
    get_all_builtin_tools.length = 11 ∧
    get_all_builtin_tools.map ToolClass.className = builtin_all := by
  refine ⟨rfl, rfl, rfl⟩

/-- The `__all__` list of `src/context/__init__.py`. -/
def context_all_names : List String :=
  ["ContextManager", "ChatCompactor", "LoopDetector"]

/-- The `__all__` list of `src/friday_ai/context/__init__.py`. -/
def friday_context_all_names : List String :=
  ["ContextManager", "ChatCompactor", "LoopDetector"]

/-- The import statements of `src/context/__init__.py`: full source module
path (as its dotted components) paired with the imported name, in source
order. -/
def context_imports : List (List String × String) :=
  [(["context", "manager"], "ContextManager"),
   (["context", "compaction"], "ChatCompactor"),
   (["context", "loop_detector"], "LoopDetector")]

/-- The import statements of `src/friday_ai/context/__init__.py`. -/
def friday_context_imports : List (List String × String) :=
  [(["friday_ai", "context", "manager"], "ContextManager"),
   (["friday_ai", "context", "compaction"], "ChatCompactor"),
   (["friday_ai", "context", "loop_detector"], "LoopDetector")]

/-- Last dotted component of a Python module path, i.e. the submodule name
relative to its package. -/
def moduleBase (m : List String) : String := m.getLastD ""

/-- C10: the two context packages expose identical public interfaces: both
`__all__` lists are exactly ContextManager, ChatCompactor, LoopDetector, each
name is imported from the `manager`, `compaction` and `loop_detector`
submodules of the respective package, and the imported names coincide with
the export lists. -/
theorem c10_context_packages_equivalent :
    context_all_names = friday_context_all_names ∧
    context_all_names = ["ContextManager", "ChatCompactor", "LoopDetector"] ∧
    context_imports.map (fun p => (moduleBase p.1, p.2)) =
      friday_context_imports.map (fun p => (moduleBase p.1, p.2)) ∧
    context_imports.map (fun p => (moduleBase p.1, p.2)) =
      [("manager", "ContextManager"), ("compaction", "ChatCompactor"),
       ("loop_detector", "LoopDetector")] ∧
    context_imports.map (fun p => p.2) = context_all_names ∧
    friday_context_imports.map (fun p => p.2) = friday_context_all_names := by
  refine ⟨rfl, rfl, ?_, ?_, rfl, rfl⟩
  · decide
  · decide

end Friday
